import Mathlib

/-!
Shallow embedding of `src/github-lang-getter.js` (github-lang-getter), with
theorems settling the frozen claims about its specification.

The repository is a client of the GitHub REST API.  Its pure data-flow
(validation branching, pagination arithmetic, commit filtering, per-language
aggregation) is translated here into executable Lean definitions; the external
collaborators (HTTP transport, the `language-detect` classifier, the
`different` diff parser) are modelled at their interface boundary as function
parameters, so every theorem quantifies over their behaviour.
-/

namespace LangGetter

/-- A JavaScript value, as far as the validation code inspects one: the
`schema-inspector` check `{type: string}` only looks at the type tag, and
the `if (username)` guard only looks at truthiness. -/
inductive JSVal where
  | str (s : String)
  | num (n : Int)
  | bool (b : Bool)
  | null
  | undef
deriving DecidableEq, Repr

/-- JavaScript truthiness of a `JSVal`: empty string, 0, false, null and
undefined are falsy. -/
def JSVal.truthy : JSVal → Bool
  | .str s => s ≠ ""
  | .num n => n ≠ 0
  | .bool b => b
  | .null => false
  | .undef => false

/-- Whether the value is a string.  Models `schema-inspector`
`inspector.validate({type: string}, v).valid`: the schema carries only a
`type` constraint, so any string (the empty string included) is valid and any
non-string is invalid. -/
def JSVal.isString : JSVal → Bool
  | .str _ => true
  | _ => false

/-- String interpolation of a `JSVal`, used for the
`${url}/users/${username}/repos` template literal. -/
def JSVal.interp : JSVal → String
  | .str s => s
  | .num n => toString n
  | .bool b => toString b
  | .null => "null"
  | .undef => "undefined"

def API_BASE_URL : String := "https://api.github.com"

/-- First observable action of `getUserRepos` (src/github-lang-getter.js lines
258-308): either a synchronous throw of a validation error, or the first HTTP
request, identified by its URL.  Every `throw` in the function happens before
`await request(apiOptions)`, so the constructor order of this type is exactly
the temporal order of the code. -/
inductive Outcome where
  | validationError
  | request (url : String)
deriving DecidableEq, Repr

/-- Validation-and-first-request prefix of `getUserRepos(token, username,
options)`, translated from src/github-lang-getter.js lines 282-308.
`optionsValid` stands for `inspector.validate(optionsValidation, options).valid`
after the `defaultsDeep` merge; for calls that pass no options it is `true`
(the defaults are a string and an array of non-empty strings).  In the
username branch the options are never validated and the token is never
validated; in the token branch the options are validated first, then the
token. -/
def getUserReposStart (token username : JSVal) (optionsValid : Bool) : Outcome :=
  if username.truthy then
    if username.isString then
      .request (API_BASE_URL ++ "/users/" ++ username.interp ++ "/repos")
    else .validationError
  else
    if optionsValid then
      if token.isString then .request (API_BASE_URL ++ "/user/repos")
      else .validationError
    else .validationError

/-- Claim C2 as stated is false: an empty-string credential passed to
`getRepoLanguages` (username absent, default options) passes the
`{type: string}` validation, and the repository-listing request is issued
rather than the call rejecting with a validation error. -/
theorem C2_counterexample :
    getUserReposStart (JSVal.str "") JSVal.undef true
      = Outcome.request "https://api.github.com/user/repos"
    ∧ getUserReposStart (JSVal.str "") JSVal.undef true ≠ Outcome.validationError := by
  decide

/-- Claim C2, amended: a credential that is not a string at all fails
validation synchronously, before any HTTP request is issued; but any string
credential — the empty string included — passes the type-only validation and
the repository-listing request is issued. -/
theorem C2_amended (token : JSVal) :
    (token.isString = false →
      getUserReposStart token JSVal.undef true = Outcome.validationError)
    ∧ ∀ s : String,
        getUserReposStart (JSVal.str s) JSVal.undef true
          = Outcome.request "https://api.github.com/user/repos" := by
  constructor
  · intro h
    cases token <;> simp_all [getUserReposStart, JSVal.isString, JSVal.truthy]
  · intro s
    rfl

/-- Witness for `C2_amended` at the concrete non-string credential `42`. -/
theorem C2_amended_witness :
    getUserReposStart (JSVal.num 42) JSVal.undef true = Outcome.validationError :=
  (C2_amended (JSVal.num 42)).1 (by decide)

/-- Claim C9 as stated is false: in a by-username call whose username is the
empty string (falsy), the code falls through to the credential branch, so a
malformed (non-string) credential does raise a validation error and no
repository-listing request is issued. -/
theorem C9_counterexample :
    getUserReposStart (JSVal.num 42) (JSVal.str "") true = Outcome.validationError := by
  decide

/-- Claim C9, amended: in the by-username variants, whenever the supplied
username is truthy (any non-empty string), only the username is validated: the
repository-listing request for that username is issued regardless of the
credential value and regardless of the options validation result, so a
malformed credential never raises a validation error on this path. -/
theorem C9_amended (token : JSVal) (s : String) (b : Bool) (h : s ≠ "") :
    getUserReposStart token (JSVal.str s) b
      = Outcome.request ("https://api.github.com/users/" ++ s ++ "/repos") := by
  simp [getUserReposStart, JSVal.truthy, JSVal.isString, JSVal.interp, h, API_BASE_URL]

/-- Witness for `C9_amended`: a numeric credential together with the username
`alice` still issues the listing request for alice. -/
theorem C9_amended_witness :
    getUserReposStart (JSVal.num 42) (JSVal.str "alice") true
      = Outcome.request "https://api.github.com/users/alice/repos" :=
  C9_amended (JSVal.num 42) "alice" true (by decide)

/-- `const PROMISE_CONCURRENCY = 10` (src/github-lang-getter.js line 26). -/
def PROMISE_CONCURRENCY : Nat := 10

/-- Shape of one multi-URL fetch site.  `promiseMap c n` is a Bluebird
`Promise.map(urls, fn, { concurrency: c })` over `n` URLs, which keeps at most
`c` requests running at once.  `promiseAll n` is the pagination pattern of
`getUserRepos` and `getRepoCommits`: the loop body
`promises.push(_.curry(createAPIRequestPromise)(token, qs, url))` applies the
curried function to all three of its arguments, so every request is started
immediately inside the loop and `Promise.all` merely awaits the `n` already
in-flight requests. -/
inductive FanOut where
  | promiseMap (concurrency : Nat) (numUrls : Nat)
  | promiseAll (numUrls : Nat)
deriving DecidableEq, Repr

/-- Largest number of HTTP requests a fan-out site can have in flight at
once. -/
def FanOut.maxInFlight : FanOut → Nat
  | .promiseMap c n => min c n
  | .promiseAll n => n

/-- Fan-out site of `getRepoLanguageTotals` line 106: one language request per
repository through `Promise.map` with `PROMISE_CONCURRENCY`. -/
def repoLangFanOut (numRepos : Nat) : FanOut :=
  .promiseMap PROMISE_CONCURRENCY numRepos

/-- Fan-out site of `getCommitLanguageTotals` line 142: one detail request per
commit URL through `Promise.map` with `PROMISE_CONCURRENCY`. -/
def commitDetailFanOut (numCommits : Nat) : FanOut :=
  .promiseMap PROMISE_CONCURRENCY numCommits

/-- Fan-out site of `getCommitsFromRepos` line 179: one commit-listing fetch
per repository through `Promise.map` with `PROMISE_CONCURRENCY`. -/
def repoCommitListFanOut (numRepos : Nat) : FanOut :=
  .promiseMap PROMISE_CONCURRENCY numRepos

/-- Fan-out site of the pagination loops (`getUserRepos` lines 312-325 and
`getRepoCommits` lines 349-361): the extra pages `next..last` are all started
inside the `for` loop and awaited with `Promise.all`, with no concurrency
option anywhere. -/
def extraPagesFanOut (next last : Nat) : FanOut :=
  .promiseAll (last + 1 - next)

/-- Claim C3 as stated is false: a paginated resource whose first response
advertises `next = 2` and `last = 12` makes the pagination site start all 11
extra pages at once, exceeding the system-wide bound of 10. -/
theorem C3_counterexample :
    (extraPagesFanOut 2 12).maxInFlight = 11
    ∧ ¬ (extraPagesFanOut 2 12).maxInFlight ≤ PROMISE_CONCURRENCY := by
  decide

/-- Claim C3, amended: the three `Promise.map` fan-out sites are bounded by
the system-wide constant `PROMISE_CONCURRENCY = 10`, but the extra pages
`[next..last]` of a paginated resource are all requested simultaneously — the
number in flight equals the number of discovered extra pages and is not capped
by any constant. -/
theorem C3_amended (numRepos numCommits next last : Nat) :
    (repoLangFanOut numRepos).maxInFlight ≤ PROMISE_CONCURRENCY
    ∧ (commitDetailFanOut numCommits).maxInFlight ≤ PROMISE_CONCURRENCY
    ∧ (repoCommitListFanOut numRepos).maxInFlight ≤ PROMISE_CONCURRENCY
    ∧ (extraPagesFanOut next last).maxInFlight = last + 1 - next := by
  refine ⟨?_, ?_, ?_, rfl⟩ <;>
    simp [repoLangFanOut, commitDetailFanOut, repoCommitListFanOut,
      FanOut.maxInFlight]

/-- One logical paginated GET, translated from `getUserRepos` lines 308-325
(and the identical pattern of `getRepoCommits` lines 345-361): the first
response arrives with `firstBody` and a parsed link header; when the header is
present, pages `next..last` are fetched with `fetch` and appended, in page
order, after the first response.  The result lists the page bodies in the
order the callers `_.flatMap(responses, body)` them. -/
def fetchAllPages {α : Type} (firstBody : List α) (link : Option (Nat × Nat))
    (fetch : Nat → List α) : List (List α) :=
  firstBody ::
    match link with
    | none => []
    | some (next, last) => (List.range' next (last + 1 - next)).map fetch

/-- Page `p` (1-based) of a remote collection held as a list of pages. -/
def pageOf {α : Type} (pages : List (List α)) (p : Nat) : List α :=
  (pages.drop (p - 1)).headD []

/-- The link header GitHub serves with page 1 of a collection of `n` pages:
absent when the collection fits in one page, otherwise `next = 2` and
`last = n`. -/
def firstPageLink (n : Nat) : Option (Nat × Nat) :=
  if n ≤ 1 then none else some (2, n)

theorem range'_map_pageOf {α : Type} :
    ∀ (n j : Nat) (pages : List (List α)), j + n = pages.length →
      (List.range' (j + 1) n).map (pageOf pages) = pages.drop j := by
  intro n
  induction n with
  | zero =>
    intro j pages h
    simp [List.drop_eq_nil_of_le, ← h]
  | succ m ih =>
    intro j pages h
    have hj : j < pages.length := by omega
    rw [List.range'_succ, List.map_cons]
    have h1 : pageOf pages (j + 1) = pages[j] := by
      unfold pageOf
      simp only [Nat.add_sub_cancel]
      rw [List.drop_eq_getElem_cons hj]
      rfl
    have h2 : (List.range' (j + 2) m).map (pageOf pages) = pages.drop (j + 1) := by
      have := ih (j + 1) pages (by omega)
      simpa using this
    rw [h1, h2, List.drop_eq_getElem_cons hj]

/-- Claim C4: a paginated fetch over a well-formed remote collection returns
the first page followed by pages `[next..last]` in the remote order; flattened,
it is exactly the whole collection — every item exactly once, no duplicates,
no omissions.  (The fan-out bound never enters the computation of the result
value, so the result is the same regardless of it.) -/
theorem C4_pagination_complete {α : Type} (pages : List (List α))
    (h : pages ≠ []) :
    (fetchAllPages (pageOf pages 1) (firstPageLink pages.length)
        (pageOf pages)).flatten
      = pages.flatten := by
  unfold fetchAllPages firstPageLink
  by_cases h1 : pages.length ≤ 1
  · match pages, h with
    | [b], _ => simp [pageOf]
    | b₁ :: b₂ :: rest, _ => simp at h1
  · simp only [if_neg h1]
    have hlen : pages.length - 1 + 1 = pages.length := by
      cases pages with
      | nil => exact absurd rfl h
      | cons a l => simp
    have hr : (List.range' 2 (pages.length + 1 - 2)).map (pageOf pages)
        = pages.drop 1 := by
      have := range'_map_pageOf (n := pages.length - 1) (j := 1) pages (by omega)
      have harg : pages.length + 1 - 2 = pages.length - 1 := by omega
      rw [harg]
      exact this
    rw [hr]
    have hp1 : pageOf pages 1 = pages.headD [] := by
      unfold pageOf
      simp
    rw [hp1]
    cases pages with
    | nil => exact absurd rfl h
    | cons a l => simp

set_option maxRecDepth 4000 in
/-- Witness for `C4_pagination_complete` at the concrete resource of the
claim: 5 pages of 100 items each yield exactly the 500 items of the
collection. -/
theorem C4_pagination_complete_witness :
    (fetchAllPages
        (pageOf ((List.range 5).map fun p => (List.range 100).map (p * 100 + ·)) 1)
        (firstPageLink ((List.range 5).map fun p => (List.range 100).map (p * 100 + ·)).length)
        (pageOf ((List.range 5).map fun p => (List.range 100).map (p * 100 + ·)))).flatten
      = ((List.range 5).map fun p => (List.range 100).map (p * 100 + ·)).flatten
    ∧ (((List.range 5).map fun p => (List.range 100).map (p * 100 + ·)).flatten).length = 500 := by
  refine ⟨C4_pagination_complete _ (by simp), by rfl⟩

/-- Author block of a commit summary, as far as the code reads it. -/
structure Author where
  login : String
deriving DecidableEq, Repr

/-- One commit summary returned by a repository commit-listing page:
`{url, author}` where the author block may be `null` (GitHub serves `null`
for commits whose author has no account). -/
structure CommitSummary where
  url : String
  author : Option Author
deriving DecidableEq, Repr

/-- The filter predicate `(c) => c && c.author && c.author.login === user` of
`getCommitsFromRepos` lines 198-199: a list entry may itself be null, hence
the outer `Option`. -/
def commitAuthoredBy (user : String) (c : Option CommitSummary) : Bool :=
  match c with
  | some c =>
      match c.author with
      | some a => a.login == user
      | none => false
  | none => false

/-- The chain `_.chain(commitsLists).filter(...).map(url).value()` of
`getCommitsFromRepos` lines 198-200: keep the entries passing
`commitAuthoredBy` and extract their detail URL.  (The `none` branch of the
extraction is unreachable: the filter only keeps non-null entries.) -/
def filterAuthoredUrls (user : String) (cs : List (Option CommitSummary)) :
    List String :=
  (cs.filter (commitAuthoredBy user)).map fun c =>
    match c with
    | some c => c.url
    | none => ""

/-- Outcome of one repository commit-listing fetch in `getCommitsFromRepos`
lines 179-183: `getRepoCommits` either resolves to the list of page responses
(each carrying a body, a list of commit summaries) or rejects, in which case
the `.catch` converts the rejection into an `{error}` marker value. -/
abbrev RepoCommitsResult := Except String (List (List (Option CommitSummary)))

/-- One iteration of the accumulation loop of `getCommitsFromRepos` lines
187-195: an `{error}` marker contributes nothing (the TODO branch), a
successful result has each page body concatenated onto the accumulator by
`_.each(result, (value) => { commitsLists = commitsLists.concat(value.body) })`. -/
def collectStep (acc : List (Option CommitSummary)) (r : RepoCommitsResult) :
    List (Option CommitSummary) :=
  match r with
  | .error _ => acc
  | .ok pages => pages.foldl (fun a body => a ++ body) acc

/-- The whole accumulation loop of `getCommitsFromRepos` lines 186-195,
starting from `let commitsLists = []`. -/
def collectCommitLists (responses : List RepoCommitsResult) :
    List (Option CommitSummary) :=
  responses.foldl collectStep []

/-- Commit detail URLs produced by `getCommitsFromRepos` from the per-repo
fetch results, lines 186-200. -/
def getCommitUrlsFromResponses (user : String)
    (responses : List RepoCommitsResult) : List String :=
  filterAuthoredUrls user (collectCommitLists responses)

theorem appendFoldl_eq {a : Type} :
    ∀ (ps : List (List a)) (acc : List a),
      ps.foldl (fun a body => a ++ body) acc = acc ++ ps.flatten := by
  intro ps
  induction ps with
  | nil => intro acc; simp
  | cons p pr ih =>
    intro acc
    rw [List.foldl_cons, ih, List.flatten_cons, List.append_assoc]

theorem collectStep_split (acc : List (Option CommitSummary))
    (r : RepoCommitsResult) :
    collectStep acc r = acc ++ collectStep [] r := by
  cases r with
  | error e => simp [collectStep]
  | ok pages => simp [collectStep, appendFoldl_eq]

theorem collect_go :
    ∀ (responses : List RepoCommitsResult) (acc : List (Option CommitSummary)),
      responses.foldl collectStep acc = acc ++ responses.foldl collectStep [] := by
  intro responses
  induction responses with
  | nil => intro acc; simp
  | cons r rest ih =>
    intro acc
    rw [List.foldl_cons, List.foldl_cons, ih (collectStep acc r),
      ih (collectStep [] r), collectStep_split acc r, List.append_assoc]

theorem collectCommitLists_cons (r : RepoCommitsResult)
    (rest : List RepoCommitsResult) :
    collectCommitLists (r :: rest) = collectStep [] r ++ collectCommitLists rest := by
  unfold collectCommitLists
  rw [List.foldl_cons, collect_go rest (collectStep [] r)]

theorem collectCommitLists_filter_ok (responses : List RepoCommitsResult) :
    collectCommitLists (responses.filter Except.isOk) = collectCommitLists responses := by
  induction responses with
  | nil => rfl
  | cons r rest ih =>
    cases r with
    | error e =>
      rw [show (Except.error e :: rest).filter Except.isOk = rest.filter Except.isOk
        from rfl]
      rw [ih, collectCommitLists_cons]
      rfl
    | ok pages =>
      rw [show (Except.ok pages :: rest).filter Except.isOk
          = Except.ok pages :: rest.filter Except.isOk from rfl]
      rw [collectCommitLists_cons, collectCommitLists_cons, ih]

/-- Claim C6: a repository whose commit-listing fetch failed is swallowed and
contributes zero commits --- the produced detail URLs are those of the
successful repositories alone, and in particular, with one failing and one
healthy repository the result is exactly what the healthy repository alone
yields. -/
theorem C6_partial_failure_tolerated (user : String)
    (responses : List RepoCommitsResult) :
    getCommitUrlsFromResponses user responses
      = getCommitUrlsFromResponses user (responses.filter Except.isOk)
    ∧ ∀ (e : String) (good : List (List (Option CommitSummary))),
        getCommitUrlsFromResponses user [Except.error e, Except.ok good]
          = getCommitUrlsFromResponses user [Except.ok good] := by
  constructor
  · unfold getCommitUrlsFromResponses
    rw [collectCommitLists_filter_ok]
  · intro e good
    unfold getCommitUrlsFromResponses
    rw [collectCommitLists_cons (Except.error e)]
    rfl

/-- The author condition of the attribution filter, restated on a non-null
commit summary: its author block is present and the recorded login equals the
acting user. -/
def authorLoginIs (user : String) (c : CommitSummary) : Bool :=
  match c.author with
  | some a => a.login == user
  | none => false

/-- Claim C7: the commit attribution filter is a pure filter-and-map.  It
distributes over concatenation of the per-repository lists (so each
sub-list keeps its own relative order), and on any list it returns exactly
the detail URLs of the non-null commits whose recorded author login equals
the acting user, in order.  On the concrete author-login lists
`[alice, bob, alice]` and `[bob, alice]` of the claim, filtering for `alice`
yields exactly the URLs of the 3 alice commits in their per-repository
order. -/
theorem C7_attribution_filter (user : String)
    (xs ys : List (Option CommitSummary)) :
    (filterAuthoredUrls user (xs ++ ys)
        = filterAuthoredUrls user xs ++ filterAuthoredUrls user ys)
    ∧ (∀ cs : List (Option CommitSummary),
        filterAuthoredUrls user cs
          = ((cs.filterMap id).filter (authorLoginIs user)).map CommitSummary.url)
    ∧ filterAuthoredUrls "alice"
        ([some ⟨"u1", some ⟨"alice"⟩⟩, some ⟨"u2", some ⟨"bob"⟩⟩,
          some ⟨"u3", some ⟨"alice"⟩⟩]
         ++ [some ⟨"u4", some ⟨"bob"⟩⟩, some ⟨"u5", some ⟨"alice"⟩⟩])
        = ["u1", "u3", "u5"] := by
  refine ⟨?_, ?_, by decide⟩
  · unfold filterAuthoredUrls
    rw [List.filter_append, List.map_append]
  · intro cs
    induction cs with
    | nil => rfl
    | cons c rest ih =>
      match c with
      | none =>
        rw [show List.filterMap id (none :: rest) = List.filterMap id rest by simp]
        rw [← ih]
        unfold filterAuthoredUrls
        rw [List.filter_cons_of_neg (by simp [commitAuthoredBy])]
      | some c =>
        rw [show List.filterMap id (some c :: rest) = c :: List.filterMap id rest by simp]
        have heq : commitAuthoredBy user (some c) = authorLoginIs user c := rfl
        cases h : authorLoginIs user c with
        | true =>
          unfold filterAuthoredUrls
          rw [List.filter_cons_of_pos (by rw [heq, h]),
            List.filter_cons_of_pos h, List.map_cons, List.map_cons]
          refine congrArg (c.url :: ·) ?_
          exact ih
        | false =>
          unfold filterAuthoredUrls
          rw [List.filter_cons_of_neg (by rw [heq, h]; exact Bool.false_ne_true),
            List.filter_cons_of_neg (by rw [h]; exact Bool.false_ne_true)]
          exact ih

/-- One step `totals[key] += obj[key]` of `getRepoLanguageTotals` lines
115-116, on totals modelled as a total function (a key never written reads as
0, which also makes the creation step `if (!totals[key]) totals[key] = 0` the
identity here). -/
def addLangBytes (t : String → Int) (k : String) (v : Int) : String → Int :=
  fun q => if q = k then t q + v else t q

/-- The inner `_.each(obj, (val, key) => ...)` of `getRepoLanguageTotals`
lines 114-117, folding one repository language map into the totals.  A JS
object cannot repeat a key, so the association list stands for the object and
`obj[key]` is the value paired with the key. -/
def addRepoLangs (t : String → Int) (obj : List (String × Int)) : String → Int :=
  obj.foldl (fun t kv => addLangBytes t kv.1 kv.2) t

/-- The outer `_.each(results, ...)` of `getRepoLanguageTotals` lines 112-118,
starting from the empty object `const totals = {}`. -/
def getRepoLanguageTotalsMap (results : List (List (String × Int))) :
    String → Int :=
  results.foldl addRepoLangs (fun _ => 0)

theorem addRepoLangs_char (obj : List (String × Int)) :
    ∀ (t : String → Int) (name : String),
      addRepoLangs t obj name
        = t name + ((obj.filter fun kv => kv.1 == name).map Prod.snd).sum := by
  induction obj with
  | nil => intro t name; simp [addRepoLangs]
  | cons kv rest ih =>
    intro t name
    rw [addRepoLangs, List.foldl_cons]
    rw [show List.foldl (fun t kv => addLangBytes t kv.1 kv.2)
        (addLangBytes t kv.1 kv.2) rest = addRepoLangs (addLangBytes t kv.1 kv.2) rest
      from rfl]
    rw [ih, List.filter_cons]
    by_cases h : kv.1 = name
    · rw [if_pos (by simp [h]), List.map_cons, List.sum_cons,
        addLangBytes, if_pos h.symm]
      omega
    · rw [if_neg (by simpa using h), addLangBytes,
        if_neg (fun hq => h hq.symm)]

theorem getRepoLanguageTotalsMap_go (results : List (List (String × Int))) :
    ∀ (t : String → Int) (name : String),
      results.foldl addRepoLangs t name
        = t name + (results.map fun obj =>
            ((obj.filter fun kv => kv.1 == name).map Prod.snd).sum).sum := by
  induction results with
  | nil => intro t name; simp
  | cons obj rest ih =>
    intro t name
    rw [List.foldl_cons, ih, addRepoLangs_char, List.map_cons, List.sum_cons]
    omega

theorem getRepoLanguageTotalsMap_perRepo (results : List (List (String × Int)))
    (name : String) :
    getRepoLanguageTotalsMap results name
      = (results.map fun obj =>
          ((obj.filter fun kv => kv.1 == name).map Prod.snd).sum).sum := by
  rw [getRepoLanguageTotalsMap, getRepoLanguageTotalsMap_go]
  simp

theorem getRepoLanguageTotalsMap_flatten (results : List (List (String × Int)))
    (name : String) :
    getRepoLanguageTotalsMap results name
      = ((results.flatten.filter fun kv => kv.1 == name).map Prod.snd).sum := by
  rw [getRepoLanguageTotalsMap_perRepo]
  induction results with
  | nil => simp
  | cons obj rest ih =>
    rw [List.map_cons, List.sum_cons, List.flatten_cons, List.filter_append,
      List.map_append, List.sum_append, ih]

/-- Claim C8: in bytes-only mode every language name is mapped, verbatim, to
the sum over all repositories of the byte counts that repository reports for
that name (no normalization, no filtering of keys); when the remote reports
only non-negative counts the total is non-negative; and the total does not
depend on the order in which the repositories are summed. -/
theorem C8_repo_bytes (results : List (List (String × Int))) (name : String) :
    (getRepoLanguageTotalsMap results name
      = ((results.flatten.filter fun kv => kv.1 == name).map Prod.snd).sum)
    ∧ ((∀ kv ∈ results.flatten, 0 ≤ kv.2) →
        0 ≤ getRepoLanguageTotalsMap results name)
    ∧ ∀ results' : List (List (String × Int)), results.Perm results' →
        getRepoLanguageTotalsMap results name
          = getRepoLanguageTotalsMap results' name := by
  refine ⟨getRepoLanguageTotalsMap_flatten results name, ?_, ?_⟩
  · intro h
    rw [getRepoLanguageTotalsMap_flatten]
    refine List.sum_nonneg ?_
    intro x hx
    obtain ⟨kv, hkv, rfl⟩ := List.mem_map.mp hx
    exact h kv (List.mem_of_mem_filter hkv)
  · intro results' hperm
    rw [getRepoLanguageTotalsMap_perRepo, getRepoLanguageTotalsMap_perRepo]
    exact (hperm.map _).sum_eq

/-- Witness for `C8_repo_bytes` on two concrete repositories: the JavaScript
total is non-negative, and permuting the repositories leaves it unchanged. -/
theorem C8_repo_bytes_witness :
    (0 ≤ getRepoLanguageTotalsMap
        [[("JavaScript", 100), ("HTML", 7)], [("JavaScript", 50)]] "JavaScript")
    ∧ getRepoLanguageTotalsMap
        [[("JavaScript", 100), ("HTML", 7)], [("JavaScript", 50)]] "JavaScript"
      = getRepoLanguageTotalsMap
        [[("JavaScript", 50)], [("JavaScript", 100), ("HTML", 7)]] "JavaScript" :=
  ⟨(C8_repo_bytes _ _).2.1 (by decide),
   (C8_repo_bytes _ _).2.2 _ (by decide)⟩

/-- A changed file of a commit detail: `{filename, patch}`; the patch may be
absent (binary file, rename-only change). -/
structure CommitFile where
  filename : String
  patch : Option String
deriving DecidableEq, Repr

/-- A commit detail, as far as `mapCommitsToResult` reads it: its changed
files. -/
structure Commit where
  files : List CommitFile
deriving DecidableEq, Repr

/-- The per-language record `{bytes, commits}` of commit mode. -/
structure LangTotal where
  bytes : Nat
  commits : Nat
deriving DecidableEq, Repr

/-- Pointwise update of one key of the totals object.  Totals are modelled as
a total function; a key never touched reads as `⟨0, 0⟩`, which also makes the
key-creation step `if (!totals[language]) totals[language] = {bytes: 0,
commits: 0}` the identity here. -/
def updateLang (t : String → LangTotal) (k : String)
    (f : LangTotal → LangTotal) : String → LangTotal :=
  fun q => if q = k then f (t q) else t q

section CommitMode

variable (detect : String → Option String)
variable (additions : Option String → List String)

/-- The byte count `mapCommitsToResult` computes for one file, lines 230-232:
`_.reduce(diff[0].additions, (sum, line) => { return line.length; }, 0)`.
The reducer ignores its accumulator and returns `line.length`, so the fold
yields the length of the LAST added line (0 when there is none), not the sum
the adjacent comment announces.  `additions` stands for the external
`different.parseDiffFromString` composed with `diff\\n`-prefixing and
`diff[0].additions`, per the interface of spec section 6: the added lines of
the patch, as strings. -/
def byteCount (patch : Option String) : Nat :=
  (additions patch).foldl (fun _sum line => line.length) 0

/-- Processing of one changed file inside `mapCommitsToResult`, lines 212-237:
classify the filename (files with no recognized language are skipped
entirely); bump the language commit counter unless the language was already
seen in this commit (`commitLangs.includes`); then add `byteCount` of the
patch to the language byte total. -/
def processFile (acc : (String → LangTotal) × List String) (file : CommitFile) :
    (String → LangTotal) × List String :=
  match detect file.filename with
  | none => acc
  | some language =>
      let step :=
        if acc.2.contains language then (acc.1, acc.2)
        else (updateLang acc.1 language
                (fun t => { t with commits := t.commits + 1 }),
              acc.2 ++ [language])
      (updateLang step.1 language
        (fun t => { t with bytes := t.bytes + byteCount additions file.patch }),
       step.2)

/-- Processing of one commit, lines 210-238: the per-commit `commitLangs`
marker list starts empty for every commit. -/
def processCommit (totals : String → LangTotal) (commit : Commit) :
    String → LangTotal :=
  (commit.files.foldl (processFile detect additions) (totals, [])).1

/-- `mapCommitsToResult` lines 208-241, starting from the empty totals
object. -/
def mapCommitsToResult (commits : List Commit) : String → LangTotal :=
  commits.foldl (processCommit detect additions) (fun _ => ⟨0, 0⟩)

theorem updateLang_bytes_commits (t : String → LangTotal) (k : String)
    (c : Nat) (q : String) :
    ((updateLang t k fun x => { x with bytes := x.bytes + c }) q).commits
      = (t q).commits := by
  unfold updateLang
  by_cases h : q = k
  · rw [if_pos h]
  · rw [if_neg h]

theorem updateLang_commits_bump (t : String → LangTotal) (k : String)
    (q : String) :
    ((updateLang t k fun x => { x with commits := x.commits + 1 }) q).commits
      = (t q).commits + (if q = k then 1 else 0) := by
  unfold updateLang
  by_cases h : q = k
  · rw [if_pos h, if_pos h]
  · rw [if_neg h, if_neg h]
    omega

theorem processFiles_commits :
    ∀ (files : List CommitFile) (totals : String → LangTotal)
      (cl : List String) (lang : String),
      (((files.foldl (processFile detect additions) (totals, cl)).1 lang).commits)
        = (totals lang).commits
          + (if lang ∉ cl ∧
                files.any (fun f => detect f.filename == some lang) = true
             then 1 else 0) := by
  intro files
  induction files with
  | nil =>
    intro totals cl lang
    simp
  | cons f fs ih =>
    intro totals cl lang
    rw [List.foldl_cons]
    cases hdet : detect f.filename with
    | none =>
      rw [show processFile detect additions (totals, cl) f = (totals, cl) by
        unfold processFile; rw [hdet]]
      rw [ih]
      have hany : (f :: fs).any (fun g => detect g.filename == some lang)
          = fs.any (fun g => detect g.filename == some lang) := by
        rw [List.any_cons, hdet]
        simp
      rw [hany]
    | some l =>
      by_cases hmem : l ∈ cl
      · rw [show processFile detect additions (totals, cl) f
            = (updateLang totals l
                (fun t => { t with bytes := t.bytes + byteCount additions f.patch }),
               cl) by
          unfold processFile; rw [hdet]; simp [hmem]]
        rw [ih]
        rw [updateLang_bytes_commits]
        have hlcl : l ∈ cl := hmem
        by_cases hin : lang ∈ cl
        · rw [if_neg (by intro hc; exact hc.1 hin),
            if_neg (by intro hc; exact hc.1 hin)]
        · have hne : (l == lang) = false := by
            cases hll : l == lang with
            | true => exact absurd (by rwa [eq_of_beq hll] at hlcl) hin
            | false => rfl
          have hany : (f :: fs).any (fun g => detect g.filename == some lang)
              = fs.any (fun g => detect g.filename == some lang) := by
            rw [List.any_cons, hdet]
            simp [hne]
          rw [hany]
      · rw [show processFile detect additions (totals, cl) f
            = (updateLang
                 (updateLang totals l (fun t => { t with commits := t.commits + 1 }))
                 l
                 (fun t => { t with bytes := t.bytes + byteCount additions f.patch }),
               cl ++ [l]) by
          unfold processFile; rw [hdet]; simp [hmem]]
        rw [ih]
        rw [updateLang_bytes_commits, updateLang_commits_bump]
        have hlcl : l ∉ cl := hmem
        by_cases heq : lang = l
        · subst heq
          rw [if_pos rfl]
          rw [if_neg (by
            intro hc
            exact hc.1 (List.mem_append_right cl (List.mem_singleton.mpr rfl)))]
          rw [if_pos ⟨hlcl, by rw [List.any_cons, hdet]; simp⟩]
        · rw [if_neg heq]
          have hmm : (lang ∉ cl ++ [l]) ↔ (lang ∉ cl) := by
            simp [heq]
          have hne : (l == lang) = false := by
            cases hll : l == lang with
            | true => exact absurd (eq_of_beq hll).symm heq
            | false => rfl
          have hany : (f :: fs).any (fun g => detect g.filename == some lang)
              = fs.any (fun g => detect g.filename == some lang) := by
            rw [List.any_cons, hdet]
            simp [hne]
          rw [hany]
          by_cases hin : lang ∈ cl
          · rw [if_neg (by intro hc; exact hc.1 (List.mem_append_left _ hin)),
              if_neg (by intro hc; exact hc.1 hin)]
          · by_cases hfs : fs.any (fun g => detect g.filename == some lang) = true
            · rw [if_pos ⟨hmm.mpr hin, hfs⟩, if_pos ⟨hin, hfs⟩]
            · rw [if_neg (by intro hc; exact hfs hc.2),
                if_neg (by intro hc; exact hfs hc.2)]

theorem processCommit_commits (totals : String → LangTotal) (c : Commit)
    (lang : String) :
    ((processCommit detect additions totals c) lang).commits
      = (totals lang).commits
        + (if c.files.any (fun f => detect f.filename == some lang) = true
           then 1 else 0) := by
  unfold processCommit
  rw [processFiles_commits]
  have hnil : (lang ∉ ([] : List String)) ↔ True := by simp
  by_cases h : c.files.any (fun f => detect f.filename == some lang) = true
  · rw [if_pos ⟨by simp, h⟩, if_pos h]
  · rw [if_neg (by intro hc; exact h hc.2), if_neg h]

/-- Claim C5: in commit mode, a language's `commits` counter is incremented
exactly once for every commit containing at least one file classifying to
that language, and never again for further files of the same language in the
same commit — the final counter equals the number of commits touching the
language, for any classifier and any diff parser. -/
theorem C5_commits_once_per_commit (commits : List Commit) (lang : String) :
    ((mapCommitsToResult detect additions commits) lang).commits
      = commits.countP (fun c =>
          c.files.any fun f => detect f.filename == some lang) := by
  unfold mapCommitsToResult
  have go : ∀ (cs : List Commit) (t : String → LangTotal),
      ((cs.foldl (processCommit detect additions) t) lang).commits
        = (t lang).commits + cs.countP (fun c =>
            c.files.any fun f => detect f.filename == some lang) := by
    intro cs
    induction cs with
    | nil => intro t; simp
    | cons c rest ih =>
      intro t
      rw [List.foldl_cons, ih, processCommit_commits, List.countP_cons]
      by_cases h : c.files.any (fun f => detect f.filename == some lang) = true
      · rw [if_pos h]
        omega
      · rw [if_neg h]
        omega
  rw [go]
  simp

end CommitMode

/-- A classifier recognizing exactly `a.js` as JavaScript, for the concrete
evaluation below. -/
def detectJsOnly (fn : String) : Option String :=
  if fn = "a.js" then some "JavaScript" else none

/-- A diff parse in which the patch has two added lines, of lengths 10 and
5. -/
def twoAddedLines (_ : Option String) : List String :=
  ["0123456789", "01234"]

/-- Claim C1 fails on the code: for a commit whose single JavaScript file adds
two lines of lengths 10 and 5 (sum 15), `mapCommitsToResult` records 5 bytes —
the length of the last added line — because the reduce callback
`(sum, line) => line.length` drops its accumulator, contradicting the
adjacent comment `Sum number of bytes from additions`. -/
theorem C1_last_line_not_sum :
    ((mapCommitsToResult detectJsOnly twoAddedLines
        [⟨[⟨"a.js", some "@@ -0,0 +1,2 @@"⟩]⟩]) "JavaScript").bytes = 5
    ∧ ((twoAddedLines (some "@@ -0,0 +1,2 @@")).map String.length).sum = 15
    ∧ (5 : Nat) ≠ 15 := by
  refine ⟨by decide, by decide, by decide⟩

/-- The caller-facing options object of `getRepoLanguages` and
`getCommitLanguages`: each of the two documented fields may be absent. -/
structure CallerOptions where
  visibility : Option String
  affiliation : Option (List String)
deriving DecidableEq, Repr

/-- The `defaultOpts` constant of src/github-lang-getter.js lines 243-246. -/
def defaultAffiliation : List String :=
  ["owner", "collaborator", "organization_member"]

/-- Per-index array merge performed by lodash `defaultsDeep` (4.x): arrays are
recursed into like objects, so the destination element is kept at every index
where it is present and the source element fills the remaining indices.  For
hole-free arrays this keeps the destination and appends the tail of the
source. -/
def mergeArrayDefaults (dest src : List String) : List String :=
  (List.range (max dest.length src.length)).map fun i =>
    (dest[i]?).getD ((src[i]?).getD "")

/-- The in-place merge `options = _.defaultsDeep(options, defaultOpts)` of
`getUserRepos` line 259.  lodash `defaultsDeep` mutates its first argument,
assigning every property that resolves to `undefined` from the defaults and
recursing into plain objects and arrays; the value returned here is the
post-call contents of the very object the caller passed in. -/
def defaultsDeepOptions (o : CallerOptions) : CallerOptions :=
  { visibility := some (o.visibility.getD "public"),
    affiliation := some (match o.affiliation with
      | none => defaultAffiliation
      | some a => mergeArrayDefaults a defaultAffiliation) }

theorem mergeArrayDefaults_eq (dest src : List String) :
    mergeArrayDefaults dest src = dest ++ src.drop dest.length := by
  apply List.ext_getElem
  · simp [mergeArrayDefaults]
    omega
  · intro i h1 h2
    have hlen : i < max dest.length src.length := by
      simpa [mergeArrayDefaults] using h1
    simp only [mergeArrayDefaults, List.getElem_map, List.getElem_range]
    by_cases hd : i < dest.length
    · rw [List.getElem?_eq_getElem hd, Option.getD_some,
        List.getElem_append_left hd]
    · have hsi : i < src.length := by omega
      have hnone : dest[i]? = none := by
        rw [List.getElem?_eq_none]
        omega
      rw [hnone, Option.getD_none, List.getElem?_eq_getElem hsi, Option.getD_some,
        List.getElem_append_right (by omega)]
      rw [List.getElem_drop]
      congr 1
      omega

/-- Claim C10 as stated is false in one respect: a caller-set `affiliation`
array is not always left unchanged.  With `options = { affiliation: [owner] }`
the deep merge pads the caller array per index with the default, so after the
call the caller object holds all three affiliation entries, not the one the
caller set. -/
theorem C10_counterexample :
    (defaultsDeepOptions ⟨none, some ["owner"]⟩).affiliation
        = some ["owner", "collaborator", "organization_member"]
    ∧ (defaultsDeepOptions ⟨none, some ["owner"]⟩).affiliation ≠ some ["owner"] := by
  refine ⟨rfl, by decide⟩

/-- Claim C10, amended: the call mutates the caller options object in place —
an absent `visibility` is inserted as `public`, a set one is kept verbatim; an
absent `affiliation` is inserted as the full default; a set `affiliation`
array is padded index-wise with the default (hence changed when shorter than
the 3-element default, and kept verbatim when at least as long). -/
theorem C10_options_mutation (o : CallerOptions) :
    (o.visibility = none → (defaultsDeepOptions o).visibility = some "public")
    ∧ (∀ v, o.visibility = some v → (defaultsDeepOptions o).visibility = some v)
    ∧ (o.affiliation = none →
        (defaultsDeepOptions o).affiliation = some defaultAffiliation)
    ∧ (∀ a, o.affiliation = some a →
        (defaultsDeepOptions o).affiliation
          = some (a ++ defaultAffiliation.drop a.length))
    ∧ (∀ a, o.affiliation = some a → defaultAffiliation.length ≤ a.length →
        (defaultsDeepOptions o).affiliation = some a) := by
  refine ⟨?_, ?_, ?_, ?_, ?_⟩
  · intro h
    simp [defaultsDeepOptions, h]
  · intro v h
    simp [defaultsDeepOptions, h]
  · intro h
    simp [defaultsDeepOptions, h]
  · intro a h
    simp only [defaultsDeepOptions, h]
    rw [mergeArrayDefaults_eq]
  · intro a h hlen
    simp only [defaultsDeepOptions, h]
    rw [mergeArrayDefaults_eq, List.drop_eq_nil_of_le hlen, List.append_nil]

/-- Witness for `C10_options_mutation`: a missing visibility is inserted as
public, and a caller affiliation array of the full length is kept verbatim. -/
theorem C10_options_mutation_witness :
    (defaultsDeepOptions ⟨none, some ["owner"]⟩).visibility = some "public"
    ∧ (defaultsDeepOptions ⟨some "all", some ["a", "b", "c"]⟩).affiliation
        = some ["a", "b", "c"] :=
  ⟨(C10_options_mutation _).1 rfl,
   (C10_options_mutation _).2.2.2.2 _ rfl (by decide)⟩

end LangGetter
